import Mathlib

/-!
Verification of the bounded UTF-16 → UTF-8 conversion utilities in
`src/user_interface/User_Interface/windows/runner/utils.cpp`.

Modelling choices (shallow embedding):
* A `const wchar_t *` argument is an `Option (Nat → Nat)`: `none` is the null
  pointer, `some s` is a pointer into memory whose wide character at offset
  `i` is `s i` (a 16-bit code unit value; `0` is the null terminator).
* `std::string` results are `List Nat` of byte values; the empty list is the
  empty string `{}` returned on every failure path.
* `size_t` and `int` quantities are `Nat`/`Int` with the relevant platform
  limits (`std::numeric_limits<int>::max()`, `std::string::max_size()`) made
  explicit as constants.
* The Windows primitive `WideCharToMultiByte(CP_UTF8, WC_ERR_INVALID_CHARS, …)`
  is external to the repository; it is modelled from its documented behaviour:
  strict UTF-16 decoding (failing on unpaired surrogates, never substituting a
  replacement character) followed by standard UTF-8 encoding.  The size-query
  call returns the required byte count, or 0 on invalid input; the conversion
  call additionally produces the bytes written into the caller's buffer.
-/

/-- Upper bound for scanning UTF-16 input, from `utils.cpp` line 41:
`static constexpr size_t kMaxUtf16Scan = 1U << 20;`. -/
def kMaxUtf16Scan : Nat := 1 <<< 20

/-- The loop of `safe_wcsnlen` (`utils.cpp` lines 32–35): starting at offset
`i` with `fuel` iterations remaining, count the wide characters up to the
first null element or until the fuel runs out. -/
def scanAux (f : Nat → Nat) : Nat → Nat → Nat
  | 0, _ => 0
  | fuel + 1, i => if f i = 0 then 0 else scanAux f fuel (i + 1) + 1

/-- `safe_wcsnlen` from `utils.cpp` lines 29–36: bounded length computation.
Returns the number of wide characters up to `max` or until a null terminator;
returns 0 for the null pointer. -/
def safe_wcsnlen (s : Option (Nat → Nat)) (max : Nat) : Nat :=
  match s with
  | none => 0
  | some f => scanAux f max 0

/-- `std::numeric_limits<int>::max()` on the target platform (32-bit `int`). -/
def intMax : Nat := 2 ^ 31 - 1

/-- Model of `std::string::max_size()`: a huge platform constant (the exact
value is implementation defined; any value at least `2 ^ 61` behaves
identically for every reachable length in this program). -/
def strMaxSize : Nat := 2 ^ 61

/-- The first `n` wide characters of the buffer `s`, as the list
`[s 0, …, s (n-1)]` — the portion of memory the conversion reads. -/
def listOf (s : Nat → Nat) (n : Nat) : List Nat := (List.range n).map s

/-- Strict UTF-16 decoding of a list of 16-bit code units into code points:
a high surrogate must be followed by a low surrogate, and a lone surrogate of
either kind is an error (`none`).  This is the validation behaviour Windows
documents for `WC_ERR_INVALID_CHARS`. -/
def utf16Decode : List Nat → Option (List Nat)
  | [] => some []
  | u :: rest =>
    if u < 0xD800 then (utf16Decode rest).map (u :: ·)
    else if u < 0xDC00 then
      match rest with
      | v :: rest2 =>
        if 0xDC00 ≤ v ∧ v < 0xE000 then
          (utf16Decode rest2).map ((0x10000 + (u - 0xD800) * 0x400 + (v - 0xDC00)) :: ·)
        else none
      | [] => none
    else if u < 0xE000 then none
    else (utf16Decode rest).map (u :: ·)

/-- Standard UTF-8 encoding of a single code point. -/
def utf8EncodeChar (c : Nat) : List Nat :=
  if c < 0x80 then [c]
  else if c < 0x800 then [0xC0 + c / 64, 0x80 + c % 64]
  else if c < 0x10000 then [0xE0 + c / 4096, 0x80 + c / 64 % 64, 0x80 + c % 64]
  else [0xF0 + c / 262144, 0x80 + c / 4096 % 64, 0x80 + c / 64 % 64, 0x80 + c % 64]

/-- Standard UTF-8 encoding of a list of code points. -/
def utf8EncodeList : List Nat → List Nat
  | [] => []
  | c :: cs => utf8EncodeChar c ++ utf8EncodeList cs

/-- Model of the size-query call
`WideCharToMultiByte(CP_UTF8, WC_ERR_INVALID_CHARS, s, n, nullptr, 0, …)`
(`utils.cpp` lines 87–89): the number of UTF-8 bytes required to convert
exactly the given code units, or 0 when the input is invalid.  The result is
an `Int` because the C call returns `int`. -/
def WideCharToMultiByte_size (units : List Nat) : Int :=
  match utf16Decode units with
  | none => 0
  | some cps => (utf8EncodeList cps).length

/-- Model of the conversion call
`WideCharToMultiByte(CP_UTF8, WC_ERR_INVALID_CHARS, s, n, buf, len, …)`
(`utils.cpp` lines 98–100) writing into a buffer of exactly the required
size: the pair of the returned byte count (`0` on invalid input) and the
bytes written. -/
def WideCharToMultiByte_conv (units : List Nat) : Int × List Nat :=
  match utf16Decode units with
  | none => (0, [])
  | some cps => ((utf8EncodeList cps).length, utf8EncodeList cps)

/-- `Utf8FromUtf16` from `utils.cpp` lines 63–106, branch for branch:
null pointer → `{}`; bounded scan; `wlen == 0` → `{}`;
`wlen == kMaxUtf16Scan` (no terminator in bound) → `{}`;
`wlen > INT_MAX` → `{}`; size query; `target_length <= 0` or above
`max_size()` → `{}`; conversion; `converted_length == 0` → `{}`;
otherwise the filled buffer. -/
def Utf8FromUtf16 (utf16_string : Option (Nat → Nat)) : List Nat :=
  match utf16_string with
  | none => []
  | some s =>
    let wlen := safe_wcsnlen (some s) kMaxUtf16Scan
    if wlen = 0 then []
    else if wlen = kMaxUtf16Scan then []
    else if intMax < wlen then []
    else
      let target_length := WideCharToMultiByte_size (listOf s wlen)
      if target_length ≤ 0 ∨ strMaxSize < target_length.toNat then []
      else
        let converted_length := (WideCharToMultiByte_conv (listOf s wlen)).1
        if converted_length = 0 then []
        else (WideCharToMultiByte_conv (listOf s wlen)).2

/-- One step of strict (standard) UTF-8 decoding: reads one code point from
the front of the byte list, rejecting stray continuation bytes, overlong
forms, surrogate code points and values above `0x10FFFF`.  Returns the code
point and the remaining bytes, or `none` on malformed input. -/
def utf8DecodeOne : List Nat → Option (Nat × List Nat)
  | [] => none
  | b :: rest =>
    if b < 0x80 then some (b, rest)
    else if b < 0xC2 then none
    else if b < 0xE0 then
      match rest with
      | b2 :: rest2 =>
        if 0x80 ≤ b2 ∧ b2 < 0xC0 then some ((b - 0xC0) * 64 + (b2 - 0x80), rest2)
        else none
      | [] => none
    else if b < 0xF0 then
      match rest with
      | b2 :: b3 :: rest3 =>
        if (0x80 ≤ b2 ∧ b2 < 0xC0) ∧ (0x80 ≤ b3 ∧ b3 < 0xC0) then
          let c := (b - 0xE0) * 4096 + (b2 - 0x80) * 64 + (b3 - 0x80)
          if 0x800 ≤ c ∧ ¬(0xD800 ≤ c ∧ c < 0xE000) then some (c, rest3) else none
        else none
      | _ => none
    else if b < 0xF5 then
      match rest with
      | b2 :: b3 :: b4 :: rest4 =>
        if (0x80 ≤ b2 ∧ b2 < 0xC0) ∧ (0x80 ≤ b3 ∧ b3 < 0xC0) ∧ (0x80 ≤ b4 ∧ b4 < 0xC0) then
          let c := (b - 0xF0) * 262144 + (b2 - 0x80) * 4096 + (b3 - 0x80) * 64 + (b4 - 0x80)
          if 0x10000 ≤ c ∧ c < 0x110000 then some (c, rest4) else none
        else none
      | _ => none
    else none

/-- Iterate `utf8DecodeOne` over the whole byte list; each step consumes at
least one byte, so `fuel` bounded below by the list length suffices. -/
def utf8DecodeAux : Nat → List Nat → Option (List Nat)
  | _, [] => some []
  | 0, _ :: _ => none
  | fuel + 1, b :: rest =>
    match utf8DecodeOne (b :: rest) with
    | none => none
    | some (c, rest2) => (utf8DecodeAux fuel rest2).map (c :: ·)

/-- Strict (standard) UTF-8 decoding of a byte list back into code points.
Used to state the round-trip property. -/
def utf8Decode (bs : List Nat) : Option (List Nat) := utf8DecodeAux bs.length bs

/-- Sample input used by several witnesses: the wide string `"ABC"` followed
by a null terminator (and nulls ever after). -/
def abcInput : Nat → Nat := fun i => [65, 66, 67].getD i 0

/-! ### Lemmas about the bounded scan -/

theorem scanAux_le (f : Nat → Nat) (fuel : Nat) : ∀ i, scanAux f fuel i ≤ fuel := by
  induction fuel with
  | zero => intro i; exact Nat.le_refl 0
  | succ fuel ih =>
    intro i
    simp only [scanAux]
    split
    · exact Nat.zero_le _
    · exact Nat.succ_le_succ (ih (i + 1))

theorem scanAux_eq (f : Nat → Nat) (fuel : Nat) :
    ∀ i k, k ≤ fuel → (∀ j, j < k → f (i + j) ≠ 0) → (k < fuel → f (i + k) = 0) →
      scanAux f fuel i = k := by
  induction fuel with
  | zero =>
    intro i k hk _ _
    have : k = 0 := Nat.le_zero.mp hk
    subst this
    rfl
  | succ fuel ih =>
    intro i k hk hnz h0
    simp only [scanAux]
    cases k with
    | zero =>
      have hf : f i = 0 := by simpa using h0 (Nat.succ_pos fuel)
      simp [hf]
    | succ k =>
      have hf : f i ≠ 0 := by simpa using hnz 0 (Nat.succ_pos k)
      rw [if_neg hf]
      have hrec : scanAux f fuel (i + 1) = k := by
        refine ih (i + 1) k (Nat.lt_succ_iff.mp (Nat.lt_of_lt_of_le (Nat.lt_succ_self k) hk))
          (fun j hj => ?_) (fun hlt => ?_)
        · have := hnz (j + 1) (Nat.succ_lt_succ hj)
          rwa [show i + 1 + j = i + (j + 1) by omega]
        · have := h0 (Nat.succ_lt_succ hlt)
          rwa [show i + 1 + k = i + (k + 1) by omega]
      rw [hrec]

theorem scanAux_congr (f g : Nat → Nat) (fuel : Nat) :
    ∀ i, (∀ j, j < fuel → f (i + j) = g (i + j)) → scanAux f fuel i = scanAux g fuel i := by
  induction fuel with
  | zero => intro i _; rfl
  | succ fuel ih =>
    intro i h
    have h0 : f i = g i := by simpa using h 0 (Nat.succ_pos fuel)
    simp only [scanAux, h0]
    split
    · rfl
    · rw [ih (i + 1) (fun j hj => by
        rw [show i + 1 + j = i + (j + 1) by omega]
        exact h (j + 1) (Nat.succ_lt_succ hj))]

theorem safe_wcsnlen_eq (s : Nat → Nat) (L : Nat) (hL : L ≤ kMaxUtf16Scan)
    (hnz : ∀ i, i < L → s i ≠ 0) (h0 : L < kMaxUtf16Scan → s L = 0) :
    safe_wcsnlen (some s) kMaxUtf16Scan = L :=
  scanAux_eq s kMaxUtf16Scan 0 L hL (fun j hj => by simpa using hnz j hj)
    (fun hlt => by simpa using h0 hlt)

/-! ### Lemmas about `listOf` -/

theorem listOf_length (s : Nat → Nat) (n : Nat) : (listOf s n).length = n := by
  simp [listOf]

theorem listOf_ne_nil (s : Nat → Nat) (n : Nat) (h : 0 < n) : listOf s n ≠ [] := by
  intro hh
  have := congrArg List.length hh
  simp [listOf] at this
  omega

theorem listOf_congr (f g : Nat → Nat) (n : Nat) (h : ∀ i, i < n → f i = g i) :
    listOf f n = listOf g n := by
  simp only [listOf]
  refine List.map_congr_left ?_
  intro a ha
  exact h a (List.mem_range.mp ha)

/-! ### Lemmas about decoding and encoding -/

theorem utf16Decode_ne_nil (us cps : List Nat) (hne : us ≠ [])
    (h : utf16Decode us = some cps) : cps ≠ [] := by
  cases us with
  | nil => exact absurd rfl hne
  | cons u rest =>
    cases rest with
    | nil =>
      simp only [utf16Decode] at h
      split_ifs at h with h1 h2
      · rcases Option.map_eq_some'.mp h with ⟨l, _, rfl⟩; simp
      · rcases Option.map_eq_some'.mp h with ⟨l, _, rfl⟩; simp
    | cons v rest2 =>
      simp only [utf16Decode] at h
      split_ifs at h with h1 h2 h3 h4
      · rcases Option.map_eq_some'.mp h with ⟨l, _, rfl⟩; simp
      · rcases Option.map_eq_some'.mp h with ⟨l, _, rfl⟩; simp
      · rcases Option.map_eq_some'.mp h with ⟨l, _, rfl⟩; simp

theorem utf16Decode_len_aux (n : Nat) : ∀ us cps, us.length ≤ n →
    utf16Decode us = some cps → cps.length ≤ us.length := by
  induction n with
  | zero =>
    intro us cps hlen h
    cases us with
    | nil =>
      simp only [utf16Decode] at h
      injection h with h
      subst h
      exact Nat.le_refl 0
    | cons u rest => simp at hlen
  | succ n ih =>
    intro us cps hlen h
    cases us with
    | nil =>
      simp only [utf16Decode] at h
      injection h with h
      subst h
      exact Nat.le_refl 0
    | cons u rest =>
      cases rest with
      | nil =>
        simp only [utf16Decode] at h
        split_ifs at h with h1 h2
        · rcases Option.map_eq_some'.mp h with ⟨l, hl, rfl⟩
          injection hl with hl
          subst hl
          simp
        · rcases Option.map_eq_some'.mp h with ⟨l, hl, rfl⟩
          injection hl with hl
          subst hl
          simp
      | cons v rest2 =>
        simp only [utf16Decode] at h
        split_ifs at h with h1 h2 h3 h4
        · rcases Option.map_eq_some'.mp h with ⟨l, hl, rfl⟩
          have := ih (v :: rest2) l (by simp at hlen ⊢; omega) hl
          simp only [List.length_cons] at this ⊢
          omega
        · rcases Option.map_eq_some'.mp h with ⟨l, hl, rfl⟩
          have := ih rest2 l (by simp at hlen ⊢; omega) hl
          simp only [List.length_cons]
          omega
        · rcases Option.map_eq_some'.mp h with ⟨l, hl, rfl⟩
          have := ih (v :: rest2) l (by simp at hlen ⊢; omega) hl
          simp only [List.length_cons] at this ⊢
          omega

theorem utf16Decode_length_le (us cps : List Nat) (h : utf16Decode us = some cps) :
    cps.length ≤ us.length :=
  utf16Decode_len_aux us.length us cps (Nat.le_refl _) h

theorem utf8EncodeChar_ne_nil (c : Nat) : utf8EncodeChar c ≠ [] := by
  unfold utf8EncodeChar
  split_ifs <;> simp

theorem utf8EncodeChar_len_le (c : Nat) : (utf8EncodeChar c).length ≤ 4 := by
  unfold utf8EncodeChar
  split_ifs <;> simp

theorem utf8EncodeList_len_le (cs : List Nat) : (utf8EncodeList cs).length ≤ 4 * cs.length := by
  induction cs with
  | nil => simp [utf8EncodeList]
  | cons c cs ih =>
    simp only [utf8EncodeList, List.length_append, List.length_cons]
    have := utf8EncodeChar_len_le c
    omega

theorem utf8EncodeList_cons_ne_nil (c : Nat) (cs : List Nat) : utf8EncodeList (c :: cs) ≠ [] := by
  simp only [utf8EncodeList]
  simp [List.append_eq_nil, utf8EncodeChar_ne_nil c]

theorem WideCharToMultiByte_conv_fst (us : List Nat) :
    (WideCharToMultiByte_conv us).1 = WideCharToMultiByte_size us := by
  cases h : utf16Decode us <;> simp [WideCharToMultiByte_conv, WideCharToMultiByte_size, h]

theorem WideCharToMultiByte_conv_snd_length (us : List Nat) :
    (WideCharToMultiByte_conv us).2.length = (WideCharToMultiByte_size us).toNat := by
  cases h : utf16Decode us <;> simp [WideCharToMultiByte_conv, WideCharToMultiByte_size, h]

/-! ### Unfolding the conversion on a non-null pointer -/

theorem Utf8FromUtf16_some (s : Nat → Nat) :
    Utf8FromUtf16 (some s) =
      (if safe_wcsnlen (some s) kMaxUtf16Scan = 0 then []
       else if safe_wcsnlen (some s) kMaxUtf16Scan = kMaxUtf16Scan then []
       else if intMax < safe_wcsnlen (some s) kMaxUtf16Scan then []
       else
         if WideCharToMultiByte_size (listOf s (safe_wcsnlen (some s) kMaxUtf16Scan)) ≤ 0 ∨
             strMaxSize <
               (WideCharToMultiByte_size (listOf s (safe_wcsnlen (some s) kMaxUtf16Scan))).toNat
         then []
         else
           if (WideCharToMultiByte_conv (listOf s (safe_wcsnlen (some s) kMaxUtf16Scan))).1 = 0
           then []
           else (WideCharToMultiByte_conv (listOf s (safe_wcsnlen (some s) kMaxUtf16Scan))).2) :=
  rfl

/-! ### ASCII special cases -/

theorem utf16Decode_cons_lt (u : Nat) (rest : List Nat) (hu : u < 0xD800) :
    utf16Decode (u :: rest) = (utf16Decode rest).map (u :: ·) := by
  cases rest <;> simp [utf16Decode, hu]

theorem utf16Decode_ascii (us : List Nat) (h : ∀ u ∈ us, u < 0xD800) :
    utf16Decode us = some us := by
  induction us with
  | nil => rfl
  | cons u rest ih =>
    have hu : u < 0xD800 := h u (List.mem_cons_self u rest)
    have hr := ih (fun x hx => h x (List.mem_cons_of_mem u hx))
    rw [utf16Decode_cons_lt u rest hu, hr]
    rfl

theorem utf8EncodeList_ascii (cs : List Nat) (h : ∀ c ∈ cs, c < 0x80) :
    utf8EncodeList cs = cs := by
  induction cs with
  | nil => rfl
  | cons c cs ih =>
    have hc : c < 0x80 := h c (List.mem_cons_self c cs)
    have hr := ih (fun x hx => h x (List.mem_cons_of_mem c hx))
    simp only [utf8EncodeList, hr, utf8EncodeChar, if_pos hc]
    rfl

theorem utf8DecodeOne_ascii (b : Nat) (rest : List Nat) (hb : b < 0x80) :
    utf8DecodeOne (b :: rest) = some (b, rest) := by
  cases rest with
  | nil => simp [utf8DecodeOne, hb]
  | cons b2 rest2 =>
    cases rest2 with
    | nil => simp [utf8DecodeOne, hb]
    | cons b3 rest3 =>
      cases rest3 with
      | nil => simp [utf8DecodeOne, hb]
      | cons b4 rest4 => simp [utf8DecodeOne, hb]

theorem utf8DecodeAux_ascii (fuel : Nat) : ∀ bs : List Nat, bs.length ≤ fuel →
    (∀ b ∈ bs, b < 0x80) → utf8DecodeAux fuel bs = some bs := by
  induction fuel with
  | zero =>
    intro bs hlen _
    cases bs with
    | nil => rfl
    | cons b rest => simp at hlen
  | succ fuel ih =>
    intro bs hlen h
    cases bs with
    | nil => rfl
    | cons b rest =>
      have hb : b < 0x80 := h b (List.mem_cons_self b rest)
      have hr := ih rest (by simp at hlen; omega) (fun x hx => h x (List.mem_cons_of_mem b hx))
      simp only [utf8DecodeAux, utf8DecodeOne_ascii b rest hb, hr]
      rfl

theorem utf8Decode_ascii (bs : List Nat) (h : ∀ b ∈ bs, b < 0x80) :
    utf8Decode bs = some bs :=
  utf8DecodeAux_ascii bs.length bs (Nat.le_refl _) h

/-! ### The main conversion lemma -/

theorem Utf8FromUtf16_eq_encode (s : Nat → Nat) (L : Nat) (cps : List Nat)
    (hL0 : 0 < L) (hLmax : L < kMaxUtf16Scan)
    (hnz : ∀ i, i < L → s i ≠ 0) (hterm : s L = 0)
    (hdec : utf16Decode (listOf s L) = some cps) :
    Utf8FromUtf16 (some s) = utf8EncodeList cps := by
  have hkv : kMaxUtf16Scan = 1048576 := by decide
  have hiv : intMax = 2147483647 := by decide
  have hsv : strMaxSize = 2305843009213693952 := by decide
  have hw : safe_wcsnlen (some s) kMaxUtf16Scan = L :=
    safe_wcsnlen_eq s L (Nat.le_of_lt hLmax) hnz (fun _ => hterm)
  have hne : listOf s L ≠ [] := listOf_ne_nil s L hL0
  have hcps : cps ≠ [] := utf16Decode_ne_nil _ _ hne hdec
  have hlcl : cps.length ≤ L := by
    have := utf16Decode_length_le _ _ hdec
    rwa [listOf_length] at this
  have hencne : utf8EncodeList cps ≠ [] := by
    cases cps with
    | nil => exact absurd rfl hcps
    | cons c l => exact utf8EncodeList_cons_ne_nil c l
  have hpos : 0 < (utf8EncodeList cps).length := List.length_pos.mpr hencne
  have hb4 : (utf8EncodeList cps).length ≤ 4 * L :=
    Nat.le_trans (utf8EncodeList_len_le cps) (by omega)
  rw [Utf8FromUtf16_some, hw]
  rw [if_neg (by omega), if_neg (by omega), if_neg (by omega)]
  have hsz : WideCharToMultiByte_size (listOf s L) = ((utf8EncodeList cps).length : Int) := by
    simp [WideCharToMultiByte_size, hdec]
  have hc1 : (WideCharToMultiByte_conv (listOf s L)).1 = ((utf8EncodeList cps).length : Int) := by
    simp [WideCharToMultiByte_conv, hdec]
  have hc2 : (WideCharToMultiByte_conv (listOf s L)).2 = utf8EncodeList cps := by
    simp [WideCharToMultiByte_conv, hdec]
  rw [hsz, hc1, hc2]
  rw [if_neg (by omega), if_neg (by omega)]

/-! ### The claims -/

/-- Claim C1: for every wide-character sequence `s` of length `L`
(`0 < L < kMaxUtf16Scan`) whose element at index `L` is the null terminator
and whose first `L` elements form valid characters (strict UTF-16 decoding
succeeds), `Utf8FromUtf16` returns exactly the standard UTF-8 encoding of
those first `L` elements — no trailing null byte. -/
theorem utf8FromUtf16_valid_terminated (s : Nat → Nat) (L : Nat) (cps : List Nat)
    (hL0 : 0 < L) (hLmax : L < kMaxUtf16Scan)
    (hnz : ∀ i, i < L → s i ≠ 0) (hterm : s L = 0)
    (hdec : utf16Decode (listOf s L) = some cps) :
    Utf8FromUtf16 (some s) = utf8EncodeList cps :=
  Utf8FromUtf16_eq_encode s L cps hL0 hLmax hnz hterm hdec

/-- Witness for C1: the input `"A","B","C",NUL` yields exactly the three
bytes `0x41, 0x42, 0x43`. -/
theorem utf8FromUtf16_valid_terminated_witness :
    Utf8FromUtf16 (some abcInput) = [0x41, 0x42, 0x43] :=
  (utf8FromUtf16_valid_terminated abcInput 3 [65, 66, 67] (by decide) (by decide)
    (by decide) (by decide) (by decide)).trans (by decide)

/-- Claim C2: `safe_wcsnlen` returns 0 on the absent (null) pointer, and
otherwise returns the number of elements before the first null-valued element
or `max`, whichever is smaller; the result always satisfies `0 ≤ n ≤ max`. -/
theorem safe_wcsnlen_characterization (s : Option (Nat → Nat)) (max : Nat) :
    safe_wcsnlen s max ≤ max ∧
    (s = none → safe_wcsnlen s max = 0) ∧
    (∀ f, s = some f → ∀ k, k ≤ max → (∀ i, i < k → f i ≠ 0) → (k < max → f k = 0) →
      safe_wcsnlen s max = k) := by
  refine ⟨?_, ?_, ?_⟩
  · cases s with
    | none => exact Nat.zero_le _
    | some f => exact scanAux_le f max 0
  · rintro rfl; rfl
  · rintro f rfl k hk hnz h0
    exact scanAux_eq f max 0 k hk (fun j hj => by simpa using hnz j hj)
      (fun hlt => by simpa using h0 hlt)

/-- Witness for C2: a buffer whose first two elements are nonzero and whose
third is null scans to length 2 under the bound 5. -/
theorem safe_wcsnlen_characterization_witness :
    safe_wcsnlen (some fun i => if i < 2 then 1 else 0) 5 = 2 :=
  (safe_wcsnlen_characterization (some fun i => if i < 2 then 1 else 0) 5).2.2
    (fun i => if i < 2 then 1 else 0) rfl 2 (by decide) (by decide) (by decide)

/-- Claim C3: a wide-character sequence with no null-valued element anywhere
within its first `kMaxUtf16Scan` elements makes `Utf8FromUtf16` return the
empty result. -/
theorem utf8FromUtf16_unterminated_empty (s : Nat → Nat)
    (h : ∀ i, i < kMaxUtf16Scan → s i ≠ 0) : Utf8FromUtf16 (some s) = [] := by
  have hw : safe_wcsnlen (some s) kMaxUtf16Scan = kMaxUtf16Scan :=
    safe_wcsnlen_eq s kMaxUtf16Scan (Nat.le_refl _) h (fun hlt => absurd hlt (lt_irrefl _))
  rw [Utf8FromUtf16_some, hw, if_neg (by decide : ¬(kMaxUtf16Scan = 0)), if_pos rfl]

/-- Witness for C3: the all-ones (never-terminated) buffer converts to the
empty result. -/
theorem utf8FromUtf16_unterminated_empty_witness :
    Utf8FromUtf16 (some fun _ => 1) = [] :=
  utf8FromUtf16_unterminated_empty (fun _ => 1) (fun _ _ => Nat.one_ne_zero)

/-- Claim C4: a null-terminated wide-character sequence (within the scan
bound) containing an invalid/unpaired code unit makes `Utf8FromUtf16` return
the empty result — never a placeholder substitution. -/
theorem utf8FromUtf16_invalid_empty (s : Nat → Nat) (L : Nat)
    (hLmax : L < kMaxUtf16Scan) (hnz : ∀ i, i < L → s i ≠ 0) (hterm : s L = 0)
    (hbad : utf16Decode (listOf s L) = none) : Utf8FromUtf16 (some s) = [] := by
  have hkv : kMaxUtf16Scan = 1048576 := by decide
  have hiv : intMax = 2147483647 := by decide
  have hL0 : 0 < L := by
    rcases Nat.eq_zero_or_pos L with h | h
    · subst h
      simp [listOf, utf16Decode] at hbad
    · exact h
  have hw : safe_wcsnlen (some s) kMaxUtf16Scan = L :=
    safe_wcsnlen_eq s L (Nat.le_of_lt hLmax) hnz (fun _ => hterm)
  rw [Utf8FromUtf16_some, hw]
  rw [if_neg (by omega), if_neg (by omega), if_neg (by omega)]
  have hsz : WideCharToMultiByte_size (listOf s L) = 0 := by
    simp [WideCharToMultiByte_size, hbad]
  rw [hsz, if_pos (Or.inl (le_refl (0 : Int)))]

/-- Witness for C4: the buffer holding a lone high surrogate `0xD800`
followed by the terminator converts to the empty result. -/
theorem utf8FromUtf16_invalid_empty_witness :
    Utf8FromUtf16 (some fun i => if i = 0 then 0xD800 else 0) = [] :=
  utf8FromUtf16_invalid_empty (fun i => if i = 0 then 0xD800 else 0) 1
    (by decide) (by decide) (by decide) (by decide)

/-- Claim C5: the absent (null) input pointer makes `Utf8FromUtf16` return
the empty result. -/
theorem utf8FromUtf16_null_empty : Utf8FromUtf16 none = [] := rfl

/-- Claim C6: whenever the bounded scanned length is 0 (including the input
consisting of a single NUL element), `Utf8FromUtf16` returns the empty
result. -/
theorem utf8FromUtf16_scanned_zero_empty (s : Option (Nat → Nat))
    (h : safe_wcsnlen s kMaxUtf16Scan = 0) : Utf8FromUtf16 s = [] := by
  cases s with
  | none => rfl
  | some f => rw [Utf8FromUtf16_some, h, if_pos rfl]

/-- Witness for C6: the buffer starting with a NUL element scans to 0 and
converts to the empty result. -/
theorem utf8FromUtf16_scanned_zero_empty_witness :
    Utf8FromUtf16 (some fun _ => 0) = [] :=
  utf8FromUtf16_scanned_zero_empty (some fun _ => 0) (by decide)

/-- Claim C7: on every input that reaches the second conversion pass, if that
pass reports a nonzero byte count then `Utf8FromUtf16` returns a buffer whose
length equals exactly that count, and if it reports zero bytes written the
result is empty. -/
theorem utf8FromUtf16_second_pass_sized (s : Nat → Nat) (n : Nat)
    (hn : safe_wcsnlen (some s) kMaxUtf16Scan = n) (h0 : n ≠ 0) (hmax : n ≠ kMaxUtf16Scan)
    (hq1 : 0 < WideCharToMultiByte_size (listOf s n))
    (hq2 : (WideCharToMultiByte_size (listOf s n)).toNat ≤ strMaxSize) :
    ((WideCharToMultiByte_conv (listOf s n)).1 = 0 → Utf8FromUtf16 (some s) = []) ∧
    ((WideCharToMultiByte_conv (listOf s n)).1 ≠ 0 →
      (Utf8FromUtf16 (some s)).length = ((WideCharToMultiByte_conv (listOf s n)).1).toNat) := by
  have hkv : kMaxUtf16Scan = 1048576 := by decide
  have hiv : intMax = 2147483647 := by decide
  have hle : n ≤ kMaxUtf16Scan := by
    rw [← hn]
    exact scanAux_le s kMaxUtf16Scan 0
  rw [Utf8FromUtf16_some, hn]
  rw [if_neg h0, if_neg hmax, if_neg (by omega), if_neg (by omega)]
  constructor
  · intro hc
    rw [if_pos hc]
  · intro hc
    rw [if_neg hc, WideCharToMultiByte_conv_snd_length, WideCharToMultiByte_conv_fst]

/-- Witness for C7: on the `"ABC"` input the second pass reports 3 bytes and
the returned buffer has length exactly that count. -/
theorem utf8FromUtf16_second_pass_sized_witness :
    (Utf8FromUtf16 (some abcInput)).length =
      ((WideCharToMultiByte_conv (listOf abcInput 3)).1).toNat :=
  (utf8FromUtf16_second_pass_sized abcInput 3 (by decide) (by decide) (by decide)
    (by decide) (by decide)).2 (by decide)

/-- Claim C8: `Utf8FromUtf16` is deterministic and side-effect-free: its
result depends only on the (at most `kMaxUtf16Scan`) wide characters it may
read, so two calls on the same unchanged input — even through two buffers
that agree on that readable window — produce identical byte sequences. -/
theorem utf8FromUtf16_reads_bounded (f g : Nat → Nat)
    (h : ∀ i, i < kMaxUtf16Scan → f i = g i) :
    Utf8FromUtf16 (some f) = Utf8FromUtf16 (some g) := by
  have hw : safe_wcsnlen (some f) kMaxUtf16Scan = safe_wcsnlen (some g) kMaxUtf16Scan := by
    show scanAux f kMaxUtf16Scan 0 = scanAux g kMaxUtf16Scan 0
    exact scanAux_congr f g kMaxUtf16Scan 0 (fun j hj => by simpa using h j hj)
  rw [Utf8FromUtf16_some f, Utf8FromUtf16_some g, hw]
  by_cases h0 : safe_wcsnlen (some g) kMaxUtf16Scan = 0
  · rw [if_pos h0, if_pos h0]
  rw [if_neg h0, if_neg h0]
  by_cases hm : safe_wcsnlen (some g) kMaxUtf16Scan = kMaxUtf16Scan
  · rw [if_pos hm, if_pos hm]
  rw [if_neg hm, if_neg hm]
  have hlt : safe_wcsnlen (some g) kMaxUtf16Scan < kMaxUtf16Scan :=
    Nat.lt_of_le_of_ne (scanAux_le g kMaxUtf16Scan 0) hm
  have hlist : listOf f (safe_wcsnlen (some g) kMaxUtf16Scan) =
      listOf g (safe_wcsnlen (some g) kMaxUtf16Scan) :=
    listOf_congr f g _ (fun i hi => h i (Nat.lt_trans hi hlt))
  rw [hlist]

/-- Witness for C8: two buffers that agree on the readable window (one of
them differing only beyond `kMaxUtf16Scan`) convert identically. -/
theorem utf8FromUtf16_reads_bounded_witness :
    Utf8FromUtf16 (some fun _ => 0) =
      Utf8FromUtf16 (some fun i => if i < kMaxUtf16Scan then 0 else 7) :=
  utf8FromUtf16_reads_bounded (fun _ => 0) (fun i => if i < kMaxUtf16Scan then 0 else 7)
    (fun _ hi => (if_pos hi).symm)

/-- Claim C9: encoding a valid ASCII wide string of length `L`
(`0 < L < kMaxUtf16Scan`, null-terminated) with `Utf8FromUtf16` and then
decoding the resulting UTF-8 bytes recovers the same sequence of
characters. -/
theorem utf8FromUtf16_ascii_roundtrip (s : Nat → Nat) (L : Nat)
    (hL0 : 0 < L) (hLmax : L < kMaxUtf16Scan)
    (hascii : ∀ i, i < L → 0 < s i ∧ s i < 0x80) (hterm : s L = 0) :
    utf8Decode (Utf8FromUtf16 (some s)) = some (listOf s L) := by
  have hnz : ∀ i, i < L → s i ≠ 0 := fun i hi => Nat.pos_iff_ne_zero.mp (hascii i hi).1
  have hmem : ∀ u ∈ listOf s L, u < 0x80 := by
    intro u hu
    simp only [listOf, List.mem_map, List.mem_range] at hu
    rcases hu with ⟨i, hi, rfl⟩
    exact (hascii i hi).2
  have hdec : utf16Decode (listOf s L) = some (listOf s L) :=
    utf16Decode_ascii _ (fun u hu => Nat.lt_trans (hmem u hu) (by decide))
  rw [Utf8FromUtf16_eq_encode s L (listOf s L) hL0 hLmax hnz hterm hdec,
    utf8EncodeList_ascii _ hmem]
  exact utf8Decode_ascii _ hmem

/-- Witness for C9: the `"ABC"` input round-trips. -/
theorem utf8FromUtf16_ascii_roundtrip_witness :
    utf8Decode (Utf8FromUtf16 (some abcInput)) = some (listOf abcInput 3) :=
  utf8FromUtf16_ascii_roundtrip abcInput 3 (by decide) (by decide) (by decide) (by decide)

/-- Claim C10: the length-overflow guard in `Utf8FromUtf16` is unreachable:
the scanned length never exceeds `kMaxUtf16Scan`, and on any input passing
the `wlen == kMaxUtf16Scan` check the length is strictly below `2 ^ 20`,
hence never above `INT_MAX` — so the overflow branch never fires and the
`size_t → int` cast never truncates. -/
theorem utf8FromUtf16_overflow_guard_unreachable (s : Nat → Nat) :
    safe_wcsnlen (some s) kMaxUtf16Scan ≤ kMaxUtf16Scan ∧
    (safe_wcsnlen (some s) kMaxUtf16Scan ≠ kMaxUtf16Scan →
      ¬ intMax < safe_wcsnlen (some s) kMaxUtf16Scan) := by
  have h1 : safe_wcsnlen (some s) kMaxUtf16Scan ≤ kMaxUtf16Scan := scanAux_le s kMaxUtf16Scan 0
  refine ⟨h1, fun hne => ?_⟩
  have hkv : kMaxUtf16Scan = 1048576 := by decide
  have hiv : intMax = 2147483647 := by decide
  omega

/-- Witness for C10: on a concrete terminated buffer the scanned length is
below the scan bound and the overflow guard condition is false. -/
theorem utf8FromUtf16_overflow_guard_unreachable_witness :
    ¬ intMax < safe_wcsnlen (some fun _ => 0) kMaxUtf16Scan :=
  (utf8FromUtf16_overflow_guard_unreachable (fun _ => 0)).2 (by decide)
